import Mathlib

set_option linter.unusedVariables false

/-!
Verification development for the fileviewer core
(directory scanner, tree builder, change watcher, change broadcaster).

Shallow embedding of `src/fileviewer/server.py`, `file_parser.py` and
`watcher.py`.  Python strings are modelled by `String` (lists of characters
where character-level reasoning is needed), Python `sorted` (a stable sort)
by `List.insertionSort`, timestamps by `Int`, and the filesystem by an
inductive tree.  External libraries (`json.loads`, `yaml.safe_load`,
`queue.Queue`, the `watchdog` observer) are modelled by their documented
interfaces and their results are passed in as parameters.
-/

namespace FileViewer

/-! ## Directory entries and the per-listing sort (server.py) -/

/-- One entry of a folder listing, as built by `browse_project` and
`scan_folder` in `server.py`: a file dict
`{name, path, type: 'file', extension, modified, created}` or a folder dict
`{name, path, type: 'folder'}`. -/
inductive Item where
  | file (name : String) (path : String) (ext : String)
      (modified : Int) (created : Int)
  | folder (name : String) (path : String)
deriving DecidableEq, Repr

def Item.name : Item → String
  | .file n _ _ _ _ => n
  | .folder n _ => n

def Item.isFolder : Item → Bool
  | .file .. => false
  | .folder .. => true

/-- Creation timestamp of a file entry (the sort key `x['created']`;
never consulted for folder entries). -/
def Item.created : Item → Int
  | .file _ _ _ _ c => c
  | .folder _ _ => 0

/-- Python `str.lower()` (ASCII case folding, which covers every name in
the supported-extension set and the exclusion set). -/
def pyLower (s : String) : String := ⟨s.data.map Char.toLower⟩

/-- Sort key order for folders: `key=lambda x: x['name'].lower()`.
Python compares strings lexicographically by code point, modelled by the
lexicographic order on the character lists. -/
def folderLE (a b : Item) : Prop :=
  (pyLower a.name).data ≤ (pyLower b.name).data

/-- Sort key order for files: `key=lambda x: x['created'], reverse=True`. -/
def fileLE (a b : Item) : Prop := b.created ≤ a.created

instance : DecidableRel folderLE := fun a b =>
  inferInstanceAs (Decidable ((pyLower a.name).data ≤ (pyLower b.name).data))

instance : DecidableRel fileLE := fun a b =>
  inferInstanceAs (Decidable (b.created ≤ a.created))

instance : IsTotal Item folderLE := ⟨fun a b => le_total _ _⟩

instance : IsTrans Item folderLE :=
  ⟨fun _ _ _ h h' => le_trans h h'⟩

instance : IsTotal Item fileLE := ⟨fun a b => le_total _ _⟩

instance : IsTrans Item fileLE :=
  ⟨fun _ _ _ h h' => le_trans h' h⟩

/-- The sort applied to every folder listing in both browse modes
(`server.py` lines 205-209 and 261-265): folders first, sorted by
lower-cased name, then files sorted by creation time, newest first.
Python's `sorted` is a stable sort, modelled by the stable
`List.insertionSort`. -/
def sortItems (items : List Item) : List Item :=
  (items.filter Item.isFolder).insertionSort folderLE ++
    (items.filter fun i => !i.isFolder).insertionSort fileLE

/-! ## The filesystem model and the two browse modes -/

/-- Python `str.startswith(p)` on plain strings. -/
def pyStartsWith (s p : String) : Bool := decide (p.data <+: s.data)

/-- Python `str.endswith(p)` on plain strings. -/
def pyEndsWith (s p : String) : Bool := decide (p.data <:+ s.data)

/-- A filesystem subtree.  A directory carries an `ok` flag: `ok = false`
models a directory whose `iterdir()` raises `PermissionError`/`OSError`
when first iterated. -/
inductive FSNode where
  | file (name : String) (ext : String) (modified : Int) (created : Int)
  | dir (name : String) (ok : Bool) (children : List FSNode)

/-- `excluded_folders` from `browse_all_folders` (`server.py` line 167). -/
def excludedFolders : List String :=
  ["node_modules", ".git", "__pycache__", ".venv", "venv", "dist", "build"]

/-- The supported-extension list used by both browse modes
(`server.py` lines 184 and 244). -/
def supportedExts : List String := [".md", ".json", ".yml", ".yaml", ".mmd"]

/-- `str(item)` for a child of a folder: parent path joined with the name. -/
def childPath (parent name : String) : String := parent ++ "/" ++ name

/-- The item-collection loop of `browse_project` (`server.py` lines
241-259): one directory level; files are kept when their lower-cased
suffix is supported, folders are kept unless their name starts with a dot.
Note: this loop never consults `excludedFolders`. -/
def browseItems (parent : String) : List FSNode → List Item
  | [] => []
  | .file n ext m c :: rest =>
      (if pyLower ext ∈ supportedExts then
        [Item.file n (childPath parent n) (pyLower ext) m c] else []) ++
        browseItems parent rest
  | .dir n _ _ :: rest =>
      (if pyStartsWith n "." then [] else [Item.folder n (childPath parent n)]) ++
        browseItems parent rest

/-- `browse_project`'s listing for one folder: collect then sort
(`server.py` lines 238-265). -/
def browse_project (parent : String) (cs : List FSNode) : List Item :=
  sortItems (browseItems parent cs)

/-- The tail of `scan_folder` after the `try` block (`server.py` lines
205-209): sort the collected items and write the cache entry for this
folder; on an access error (`ok = false`) the collected items are empty
but the cache entry is still written, and a warning is printed.
`sub` is the result of iterating the folder's children. -/
def scanWrap (path : String) (ok : Bool)
    (sub : List Item × List (String × List Item) × List String) :
    List (String × List Item) × List String :=
  if ok then (sub.2.1 ++ [(path, sortItems sub.1)], sub.2.2)
  else ([(path, sortItems [])], [path])

/-- The iteration loop of `scan_folder` (`server.py` lines 177-201):
returns the items of this level, the cache entries produced by recursive
scans (in completion order), and the warnings printed.  A directory whose
name is in `excludedFolders` is skipped entirely; a file is kept when its
lower-cased suffix is supported; a non-dot directory is listed and
recursively scanned (`scanWrap` inlines the recursive `scan_folder` call). -/
def scanChildren : String → List FSNode → List Item × List (String × List Item) × List String
  | _, [] => ([], [], [])
  | path, .file n ext m c :: rest =>
      let r := scanChildren path rest
      ((if pyLower ext ∈ supportedExts then
          [Item.file n (childPath path n) (pyLower ext) m c] else []) ++ r.1,
        r.2.1, r.2.2)
  | path, .dir n ok cs :: rest =>
      let r := scanChildren path rest
      if n ∈ excludedFolders then r
      else if pyStartsWith n "." then r
      else
        let sub := scanWrap (childPath path n) ok (scanChildren (childPath path n) cs)
        (Item.folder n (childPath path n) :: r.1, sub.1 ++ r.2.1, sub.2 ++ r.2.2)

/-- `scan_folder` from `browse_all_folders` (`server.py` lines 172-209):
scan a folder, producing the recursive-scan cache (path ↦ sorted listing)
and the warning messages. -/
def scan_folder (path : String) (ok : Bool) (cs : List FSNode) :
    List (String × List Item) × List String :=
  scanWrap path ok (scanChildren path cs)

/-! ## Lemmas about the per-listing sort and the scanner -/

/-- Sorting a listing never changes which entries are present. -/
theorem mem_sortItems {i : Item} {l : List Item} : i ∈ sortItems l ↔ i ∈ l := by
  unfold sortItems
  rw [List.mem_append, (List.perm_insertionSort folderLE _).mem_iff,
    (List.perm_insertionSort fileLE _).mem_iff, List.mem_filter, List.mem_filter]
  cases h : i.isFolder <;> simp [h]

/-- A folder name is clean when neither in the exclusion set nor dot-led. -/
def cleanName (n : String) : Prop :=
  n ∉ excludedFolders ∧ pyStartsWith n "." = false

/-- Joint invariant of the recursive scan: every folder item collected at
this level is clean, and every folder item inside every produced cache
entry is clean. -/
theorem scanChildren_clean (path : String) (cs : List FSNode) :
    (∀ it ∈ (scanChildren path cs).1, it.isFolder = true → cleanName it.name) ∧
    (∀ e ∈ (scanChildren path cs).2.1, ∀ it ∈ e.2, it.isFolder = true →
      cleanName it.name) :=
  match cs with
  | [] => by simp [scanChildren]
  | .file n ext m c :: rest => by
      have ih := scanChildren_clean path rest
      simp only [scanChildren]
      constructor
      · intro it hit hf
        rcases List.mem_append.1 hit with h | h
        · rcases (by split at h <;> simp_all : it = Item.file n (childPath path n)
            (pyLower ext) m c) with rfl
          simp [Item.isFolder] at hf
        · exact ih.1 it h hf
      · exact ih.2
  | .dir n ok cs' :: rest => by
      have ih := scanChildren_clean path rest
      have ihc := scanChildren_clean (childPath path n) cs'
      simp only [scanChildren]
      by_cases hex : n ∈ excludedFolders
      · simpa [hex] using ih
      by_cases hdot : pyStartsWith n "." = true
      · simpa [hex, hdot] using ih
      simp only [hex, hdot, if_neg, if_false, ite_false]
      have hclean : cleanName n := ⟨hex, by simpa using hdot⟩
      constructor
      · intro it hit hf
        rcases List.mem_cons.1 hit with rfl | h
        · simpa [Item.name]
        · exact ih.1 it h hf
      · intro e he it hit hf
        rcases List.mem_append.1 he with h | h
        · -- entry produced by scanning the subfolder
          unfold scanWrap at h
          split at h
          · rcases List.mem_append.1 h with h' | h'
            · exact ihc.2 e h' it hit hf
            · rcases List.mem_singleton.1 h' with rfl
              exact ihc.1 it (mem_sortItems.1 hit) hf
          · rcases List.mem_singleton.1 h with rfl
            simp [sortItems] at hit
        · exact ih.2 e h it hit hf
termination_by sizeOf cs

/-- Every cache entry produced by `scan_folder` lists only clean folders. -/
theorem scan_folder_clean (path : String) (ok : Bool) (cs : List FSNode) :
    ∀ e ∈ (scan_folder path ok cs).1, ∀ it ∈ e.2, it.isFolder = true →
      cleanName it.name := by
  intro e he it hit hf
  have h := scanChildren_clean path cs
  unfold scan_folder scanWrap at he
  split at he
  · rcases List.mem_append.1 he with h' | h'
    · exact h.2 e h' it hit hf
    · rcases List.mem_singleton.1 h' with rfl
      exact h.1 it (mem_sortItems.1 hit) hf
  · rcases List.mem_singleton.1 he with rfl
    simp [sortItems] at hit

/-- In the single-level mode only the dot rule filters folders. -/
theorem browseItems_nodot (parent : String) (cs : List FSNode) :
    ∀ it ∈ browseItems parent cs, it.isFolder = true →
      pyStartsWith it.name "." = false := by
  induction cs with
  | nil => simp [browseItems]
  | cons c rest ih =>
      cases c with
      | file n ext m cr =>
          intro it hit hf
          simp only [browseItems] at hit
          rcases List.mem_append.1 hit with h | h
          · rcases (by split at h <;> simp_all : it = Item.file n
              (childPath parent n) (pyLower ext) m cr) with rfl
            simp [Item.isFolder] at hf
          · exact ih it h hf
      | dir n ok cs' =>
          intro it hit hf
          simp only [browseItems] at hit
          rcases List.mem_append.1 hit with h | h
          · by_cases hdot : pyStartsWith n "." = true
            · simp [hdot] at h
            · rcases (by simp [hdot] at h; exact h : it = Item.folder n
                (childPath parent n)) with rfl
              simpa [Item.name] using hdot
          · exact ih it h hf

/-- Cache entries of the recursive scan are always sorted listings. -/
theorem scanChildren_cache_sorted (path : String) (cs : List FSNode) :
    ∀ e ∈ (scanChildren path cs).2.1, ∃ its, e.2 = sortItems its :=
  match cs with
  | [] => by simp [scanChildren]
  | .file n ext m c :: rest => by
      have ih := scanChildren_cache_sorted path rest
      simpa only [scanChildren] using ih
  | .dir n ok cs' :: rest => by
      have ih := scanChildren_cache_sorted path rest
      have ihc := scanChildren_cache_sorted (childPath path n) cs'
      simp only [scanChildren]
      by_cases hex : n ∈ excludedFolders
      · simpa [hex] using ih
      by_cases hdot : pyStartsWith n "." = true
      · simpa [hex, hdot] using ih
      simp only [hex, hdot, if_neg, if_false, ite_false]
      intro e he
      rcases List.mem_append.1 he with h | h
      · unfold scanWrap at h
        split at h
        · rcases List.mem_append.1 h with h' | h'
          · exact ihc e h'
          · rcases List.mem_singleton.1 h' with rfl
            exact ⟨_, rfl⟩
        · rcases List.mem_singleton.1 h with rfl
          exact ⟨[], rfl⟩
      · exact ih e h
termination_by sizeOf cs

/-- Every listing in the `scan_folder` cache is a sorted listing. -/
theorem scan_folder_cache_sorted (path : String) (ok : Bool) (cs : List FSNode) :
    ∀ e ∈ (scan_folder path ok cs).1, ∃ its, e.2 = sortItems its := by
  intro e he
  unfold scan_folder scanWrap at he
  split at he
  · rcases List.mem_append.1 he with h' | h'
    · exact scanChildren_cache_sorted path cs e h'
    · rcases List.mem_singleton.1 h' with rfl
      exact ⟨_, rfl⟩
  · rcases List.mem_singleton.1 he with rfl
    exact ⟨[], rfl⟩

/-! ## Claim theorems: directory scanner -/

/-- C1 (counterexample): the claim says a folder whose name is in the fixed
exclusion set never appears in the single-level listing; but
`browse_project` applies only the dot rule, so a folder named
`node_modules` does appear in the single-level listing. -/
theorem c1_counterexample :
    Item.folder "node_modules" "/p/node_modules" ∈
      browse_project "/p" [FSNode.dir "node_modules" true []] := by decide

/-- C1 (amended): in the recursive mode, a directory whose name is in the
exclusion set or starts with a dot contributes nothing (no listing entry,
no cache entry, no warning — its contents are never scanned), and no
excluded or dot-led folder name appears in any cache entry; in the
single-level mode only the dot rule is applied to folders. -/
theorem c1_exclusion_modes :
    (∀ path n ok cs rest, (n ∈ excludedFolders ∨ pyStartsWith n "." = true) →
      scanChildren path (FSNode.dir n ok cs :: rest) = scanChildren path rest) ∧
    (∀ path ok cs, ∀ e ∈ (scan_folder path ok cs).1, ∀ it ∈ e.2,
      it.isFolder = true → cleanName it.name) ∧
    (∀ parent cs, ∀ it ∈ browse_project parent cs, it.isFolder = true →
      pyStartsWith it.name "." = false) := by
  refine ⟨?_, scan_folder_clean, ?_⟩
  · intro path n ok cs rest h
    rcases h with h | h
    · simp [scanChildren, h]
    · simp [scanChildren, h]
  · intro parent cs it hit hf
    exact browseItems_nodot parent cs it (mem_sortItems.1 hit) hf

theorem c1_exclusion_modes_witness :
    scanChildren "/r" [FSNode.dir "node_modules" true []] = scanChildren "/r" [] ∧
    cleanName (Item.folder "docs" "/r/docs").name ∧
    pyStartsWith (Item.folder "docs" "/r/docs").name "." = false :=
  ⟨c1_exclusion_modes.1 "/r" "node_modules" true [] [] (Or.inl (by decide)),
   c1_exclusion_modes.2.1 "/r" true [FSNode.dir "docs" true []]
     ("/r", [Item.folder "docs" "/r/docs"])
     (by simp [scan_folder, scanChildren, scanWrap, sortItems, excludedFolders,
           pyStartsWith, childPath])
     (Item.folder "docs" "/r/docs") (by decide) (by decide),
   c1_exclusion_modes.2.2 "/r" [FSNode.dir "docs" true []]
     (Item.folder "docs" "/r/docs") (by decide) (by decide)⟩

/-- C2 (counterexample): the claim says a folder that cannot be opened is
absent from the cache; but `scan_folder` writes the cache entry after the
`try` block, so the failing folder is present, mapped to the empty
listing. -/
theorem c2_counterexample :
    ("/r/locked", ([] : List Item)) ∈
      (scan_folder "/r" true [FSNode.dir "locked" false []]).1 := by
  simp [scan_folder, scanChildren, scanWrap, sortItems, excludedFolders,
    pyStartsWith, childPath]

/-- C2 (amended): when a visited folder cannot be opened, the scan
continues over the remaining folders, a warning naming the folder is
emitted, and the failing folder is present in the cache mapped to the
empty listing (rather than absent). -/
theorem c2_scan_error_policy (path n : String) (cs' rest : List FSNode)
    (hex : n ∉ excludedFolders) (hdot : pyStartsWith n "." = false) :
    (scanChildren path (FSNode.dir n false cs' :: rest)).2.1 =
      (childPath path n, []) :: (scanChildren path rest).2.1 ∧
    (scanChildren path (FSNode.dir n false cs' :: rest)).2.2 =
      childPath path n :: (scanChildren path rest).2.2 ∧
    (scanChildren path (FSNode.dir n false cs' :: rest)).1 =
      Item.folder n (childPath path n) :: (scanChildren path rest).1 := by
  simp only [scanChildren, scanWrap]
  simp [hex, hdot, sortItems]

theorem c2_scan_error_policy_witness :
    (scanChildren "/r" [FSNode.dir "locked" false []]).2.1 =
      (childPath "/r" "locked", []) :: (scanChildren "/r" []).2.1 ∧
    (scanChildren "/r" [FSNode.dir "locked" false []]).2.2 =
      childPath "/r" "locked" :: (scanChildren "/r" []).2.2 ∧
    (scanChildren "/r" [FSNode.dir "locked" false []]).1 =
      Item.folder "locked" (childPath "/r" "locked") :: (scanChildren "/r" []).1 :=
  c2_scan_error_policy "/r" "locked" [] [] (by decide) (by decide)

/-- C7 (confirmed): every listing in either mode is sorted as folders
first (case-insensitive name order) then files (creation time descending),
and `Banana`/`apple` order as `apple, Banana`. -/
theorem c7_sort_contract :
    (∀ items : List Item, ∃ F G, sortItems items = F ++ G ∧
        F.Perm (items.filter Item.isFolder) ∧ List.Sorted folderLE F ∧
        G.Perm (items.filter fun i => !i.isFolder) ∧ List.Sorted fileLE G) ∧
    (∀ parent cs, browse_project parent cs = sortItems (browseItems parent cs)) ∧
    (∀ path ok cs, ∀ e ∈ (scan_folder path ok cs).1, ∃ its, e.2 = sortItems its) ∧
    (sortItems [Item.folder "Banana" "/b", Item.folder "apple" "/a"]).map
      Item.name = ["apple", "Banana"] := by
  refine ⟨?_, fun parent cs => rfl, scan_folder_cache_sorted, by decide⟩
  intro items
  exact ⟨_, _, rfl, List.perm_insertionSort folderLE _,
    List.sorted_insertionSort folderLE _, List.perm_insertionSort fileLE _,
    List.sorted_insertionSort fileLE _⟩

theorem c7_sort_contract_witness :
    ∃ its, ([Item.folder "locked" "/r/locked"] : List Item) = sortItems its :=
  c7_sort_contract.2.2.1 "/r" true [FSNode.dir "locked" false []]
    ("/r", [Item.folder "locked" "/r/locked"])
    (by simp [scan_folder, scanChildren, scanWrap, sortItems, excludedFolders,
          pyStartsWith, childPath])

/-! ## Markdown header parsing (file_parser.py lines 50-87) -/

/-- Python whitespace, as matched by `str.strip()` and the regex class
`\\s`. -/
def pyWS (c : Char) : Bool :=
  c = ' ' || c = '\t' || c = '\n' || c = '\r' || c = '\x0b' || c = '\x0c'

/-- Python `str.strip()` on the character list. -/
def pyStripChars (l : List Char) : List Char :=
  ((l.dropWhile pyWS).reverse.dropWhile pyWS).reverse

/-- Python `content.split('\n')`. -/
def splitNl (l : List Char) : List (List Char) :=
  l.foldr
    (fun c acc =>
      if c = '\n' then [] :: acc
      else
        match acc with
        | [] => [[c]]
        | a :: rest => (c :: a) :: rest)
    [[]]

def pySplitLines (s : String) : List String := (splitNl s.data).map fun l => ⟨l⟩

/-- `re.match(r'^(#{1,6})\\s+(.+)$', line.strip())`, returning the header
level (count of leading hash marks) and `group(2).strip()`: the stripped
line must start with one to six hash marks, followed by at least one
whitespace character, followed by a non-empty remainder. -/
def matchHeader (line : String) : Option (Nat × String) :=
  let s := pyStripChars line.data
  let hashes := s.takeWhile fun c => c = '#'
  let rest := s.dropWhile fun c => c = '#'
  if 1 ≤ hashes.length ∧ hashes.length ≤ 6 then
    match rest with
    | [] => none
    | c :: _ =>
      if pyWS c then
        let title := rest.dropWhile pyWS
        if title.isEmpty then none else some (hashes.length, ⟨pyStripChars title⟩)
      else none
  else none

/-- A markdown header node:
`{label: title, type: 'h<level>', level, children}`. -/
inductive MDNode where
  | node (label : String) (type : String) (level : Nat) (children : List MDNode)

/-- An open header on the parser's stack, with the children accumulated so
far.  In the Python source the node dict is attached to its parent when it
is created and mutated in place; here a node is materialised, with the
same parent and position, when it is popped (or at end of input). -/
structure Frame where
  level : Nat
  label : String
  children : List MDNode

/-- Materialise a finished header node. -/
def Frame.close (f : Frame) : MDNode :=
  .node f.label ("h" ++ toString f.level) f.level f.children

/-- Collapse a popped run of frames, innermost first: each closed node
becomes the last child of the frame below it (it was created after all
earlier children of that frame). -/
def collapseGo (n : MDNode) : List Frame → MDNode
  | [] => n
  | g :: gs => collapseGo (Frame.close { g with children := g.children ++ [n] }) gs

def collapseInto : List Frame → Option MDNode
  | [] => none
  | f :: rest => some (collapseGo (Frame.close f) rest)

/-- The pop loop
`while header_stack and header_stack[-1]['level'] >= level: pop()`:
the popped run is the maximal top segment with level ≥ L; its collapsed
node belongs to the next frame down if any, else to the root list. -/
def popGE (L : Nat) (roots : List MDNode) (stack : List Frame) :
    List MDNode × List Frame :=
  match collapseInto (stack.takeWhile fun f => decide (L ≤ f.level)),
      stack.dropWhile fun f => decide (L ≤ f.level) with
  | none, _ => (roots, stack)
  | some n, [] => (roots ++ [n], [])
  | some n, g :: gs => (roots, { g with children := g.children ++ [n] } :: gs)

/-- One header step: pop deeper-or-equal headers, then push the new one. -/
def hStep (st : List MDNode × List Frame) (h : Nat × String) :
    List MDNode × List Frame :=
  let p := popGE h.1 st.1 st.2
  (p.1, ⟨h.1, h.2, []⟩ :: p.2)

/-- One line of `_parse_markdown`'s loop: non-header lines are ignored. -/
def mdStep (st : List MDNode × List Frame) (line : String) :
    List MDNode × List Frame :=
  match matchHeader line with
  | none => st
  | some h => hStep st h

def runHeaders (st : List MDNode × List Frame) (hs : List (Nat × String)) :
    List MDNode × List Frame :=
  hs.foldl hStep st

/-- Close every frame still open at end of input (level 0 pops all). -/
def finalize (st : List MDNode × List Frame) : List MDNode :=
  (popGE 0 st.1 st.2).1

/-- `_parse_markdown` (file_parser.py lines 50-87). -/
def parse_markdown (content : String) : List MDNode :=
  finalize ((pySplitLines content).foldl mdStep ([], []))

/-- The header sequence of a document: level and stripped title of each
header line, in document order. -/
def headersOf (content : String) : List (Nat × String) :=
  (pySplitLines content).filterMap matchHeader

/-- The forest built from a header sequence alone. -/
def stackForest (hs : List (Nat × String)) : List MDNode :=
  finalize (runHeaders ([], []) hs)

/-- The header forest described by the spec's stack discipline, stated
independently of the stack: a header of level L takes as its subtree
exactly the maximal following run of strictly deeper headers, and the
remainder of the sequence is parsed as its sibling forest. -/
def specForest : List (Nat × String) → List MDNode
  | [] => []
  | (L, t) :: rest =>
      MDNode.node t ("h" ++ toString L) L
          (specForest (rest.takeWhile fun h => decide (L < h.1))) ::
        specForest (rest.dropWhile fun h => decide (L < h.1))
termination_by hs => hs.length
decreasing_by
  · exact Nat.lt_succ_of_le (List.takeWhile_sublist _).length_le
  · exact Nat.lt_succ_of_le (List.dropWhile_sublist _).length_le

/-! ## The stack discipline refines the spec forest -/

theorem takeWhile_append_not {α} (p : α → Bool) (l : List α) (x : α)
    (t : List α) (hx : p x = false) :
    (l ++ x :: t).takeWhile p = l.takeWhile p := by
  induction l with
  | nil => simp [List.takeWhile_cons, hx]
  | cons a as ih =>
      simp only [List.cons_append, List.takeWhile_cons]
      cases p a <;> simp [ih]

theorem dropWhile_append_not {α} (p : α → Bool) (l : List α) (x : α)
    (t : List α) (hx : p x = false) :
    (l ++ x :: t).dropWhile p = l.dropWhile p ++ x :: t := by
  induction l with
  | nil => simp [List.dropWhile_cons, hx]
  | cons a as ih =>
      simp only [List.cons_append, List.dropWhile_cons]
      cases p a <;> simp [ih]

/-- Popping above a frame of level < L never disturbs that frame or
anything below it: it behaves like popping with the frame's accumulated
children as root list. -/
theorem popGE_floor (L₁ : Nat) (stk : List Frame) (fl : Frame)
    (s : List Frame) (r : List MDNode) (hfl : fl.level < L₁) :
    popGE L₁ r (stk ++ fl :: s) =
      (r, (popGE L₁ fl.children stk).2 ++
        (⟨fl.level, fl.label, (popGE L₁ fl.children stk).1⟩ : Frame) :: s) := by
  have hq : (fun f => decide (L₁ ≤ f.level)) fl = false := by
    simpa using Nat.not_le.2 hfl
  unfold popGE
  rw [takeWhile_append_not (fun f => decide (L₁ ≤ f.level)) stk fl s hq,
    dropWhile_append_not (fun f => decide (L₁ ≤ f.level)) stk fl s hq]
  cases hcol : collapseInto (stk.takeWhile fun f => decide (L₁ ≤ f.level)) with
  | none =>
      cases hrest : stk.dropWhile (fun f => decide (L₁ ≤ f.level)) <;>
        simp [hcol, hrest]
  | some n =>
      cases hrest : stk.dropWhile (fun f => decide (L₁ ≤ f.level)) <;>
        simp [hcol, hrest]

/-- `popGE_floor`, lifted over a run of headers that are all strictly
deeper than the floor frame. -/
theorem runHeaders_floor (hs : List (Nat × String)) (fl : Frame)
    (stk s : List Frame) (r : List MDNode)
    (hdeep : ∀ h ∈ hs, fl.level < h.1) :
    runHeaders (r, stk ++ fl :: s) hs =
      (r, (runHeaders (fl.children, stk) hs).2 ++
        (⟨fl.level, fl.label, (runHeaders (fl.children, stk) hs).1⟩ : Frame)
          :: s) := by
  induction hs generalizing fl stk with
  | nil => simp [runHeaders]
  | cons h hs ih =>
      have hfl : fl.level < h.1 := hdeep h (List.mem_cons_self h hs)
      have hdeep' : ∀ h' ∈ hs, fl.level < h'.1 := fun h' hh =>
        hdeep h' (List.mem_cons_of_mem h hh)
      have h1 : runHeaders (r, stk ++ fl :: s) (h :: hs) =
          runHeaders (hStep (r, stk ++ fl :: s) h) hs := by
        simp [runHeaders]
      have h2 : runHeaders (fl.children, stk) (h :: hs) =
          runHeaders ((popGE h.1 fl.children stk).1,
            (⟨h.1, h.2, []⟩ : Frame) :: (popGE h.1 fl.children stk).2) hs := by
        simp [runHeaders, hStep]
      have h3 : hStep (r, stk ++ fl :: s) h =
          (r, ((⟨h.1, h.2, []⟩ : Frame) :: (popGE h.1 fl.children stk).2) ++
            (⟨fl.level, fl.label, (popGE h.1 fl.children stk).1⟩ : Frame)
              :: s) := by
        simp [hStep, popGE_floor h.1 stk fl s r hfl]
      rw [h1, h3, h2]
      exact ih (⟨fl.level, fl.label, (popGE h.1 fl.children stk).1⟩ : Frame)
        ((⟨h.1, h.2, []⟩ : Frame) :: (popGE h.1 fl.children stk).2) hdeep'

/-- Popping only ever appends to the root list. -/
theorem popGE_roots (L : Nat) (r : List MDNode) (s : List Frame) :
    popGE L r s = (r ++ (popGE L [] s).1, (popGE L [] s).2) := by
  unfold popGE
  cases hcol : collapseInto (s.takeWhile fun f => decide (L ≤ f.level)) with
  | none =>
      cases hrest : s.dropWhile (fun f => decide (L ≤ f.level)) <;>
        simp [hcol, hrest]
  | some n =>
      cases hrest : s.dropWhile (fun f => decide (L ≤ f.level)) <;>
        simp [hcol, hrest]

/-- Header runs only ever append to the root list. -/
theorem runHeaders_roots (hs : List (Nat × String)) (r : List MDNode)
    (s : List Frame) :
    runHeaders (r, s) hs =
      (r ++ (runHeaders ([], s) hs).1, (runHeaders ([], s) hs).2) := by
  induction hs generalizing r s with
  | nil => simp [runHeaders]
  | cons h hs ih =>
      have e1 : runHeaders (r, s) (h :: hs) = runHeaders (hStep (r, s) h) hs := by
        simp [runHeaders]
      have e2 : runHeaders ([], s) (h :: hs) =
          runHeaders (hStep ([], s) h) hs := by
        simp [runHeaders]
      have e3 : hStep (r, s) h =
          (r ++ (popGE h.1 [] s).1,
            (⟨h.1, h.2, []⟩ : Frame) :: (popGE h.1 [] s).2) := by
        simp only [hStep]
        rw [popGE_roots h.1 r s]
      have e4 : hStep ([], s) h =
          ((popGE h.1 [] s).1,
            (⟨h.1, h.2, []⟩ : Frame) :: (popGE h.1 [] s).2) := rfl
      rw [e1, e2, e3, e4]
      rw [ih (r ++ (popGE h.1 [] s).1)
        ((⟨h.1, h.2, []⟩ : Frame) :: (popGE h.1 [] s).2)]
      rw [ih (popGE h.1 [] s).1
        ((⟨h.1, h.2, []⟩ : Frame) :: (popGE h.1 [] s).2)]
      simp [List.append_assoc]

/-- Popping introduces no new stack levels. -/
theorem popGE_levels (L : Nat) (r : List MDNode) (s : List Frame) (f : Frame)
    (hf : f ∈ (popGE L r s).2) : f.level ∈ s.map Frame.level := by
  have hsub : ∀ g ∈ s.dropWhile (fun f => decide (L ≤ f.level)), g ∈ s :=
    fun g hg => (List.dropWhile_sublist _).mem hg
  unfold popGE at hf
  split at hf
  · exact List.mem_map_of_mem _ hf
  · simp at hf
  · rename_i n g gs heqc heq
    rcases List.mem_cons.1 hf with rfl | h
    · have hg : g ∈ s := hsub g (by rw [heq]; exact List.mem_cons_self g gs)
      simpa using List.mem_map_of_mem Frame.level hg
    · have hg : f ∈ s := hsub f (by rw [heq]; exact List.mem_cons_of_mem g h)
      exact List.mem_map_of_mem _ hg

/-- Every level on the stack after a header run is an original stack level
or the level of one of the headers. -/
theorem runHeaders_levels (hs : List (Nat × String))
    (st : List MDNode × List Frame) (f : Frame)
    (hf : f ∈ (runHeaders st hs).2) :
    f.level ∈ st.2.map Frame.level ∨ f.level ∈ hs.map Prod.fst := by
  induction hs generalizing st with
  | nil =>
      left
      exact List.mem_map_of_mem _ (by simpa [runHeaders] using hf)
  | cons h hs ih =>
      have hf' : f ∈ (runHeaders (hStep st h) hs).2 := by
        simpa [runHeaders] using hf
      rcases ih (hStep st h) hf' with hmem | hmem
      · simp only [hStep, List.map_cons, List.mem_cons] at hmem
        rcases hmem with heq | hmem
        · right
          simp [heq]
        · obtain ⟨g, hg, hgl⟩ := List.mem_map.1 hmem
          have := popGE_levels h.1 st.1 st.2 g hg
          left
          rwa [hgl] at this
      · right
        simp [hmem]

theorem takeWhile_all {α} (p : α → Bool) (l : List α)
    (h : ∀ x ∈ l, p x = true) : l.takeWhile p = l := by
  induction l with
  | nil => rfl
  | cons a as ih =>
      simp [List.takeWhile_cons, h a (List.mem_cons_self a as),
        ih fun x hx => h x (List.mem_cons_of_mem a hx)]

theorem dropWhile_all {α} (p : α → Bool) (l : List α)
    (h : ∀ x ∈ l, p x = true) : l.dropWhile p = [] := by
  induction l with
  | nil => rfl
  | cons a as ih =>
      simp [List.dropWhile_cons, h a (List.mem_cons_self a as),
        ih fun x hx => h x (List.mem_cons_of_mem a hx)]

/-- When every open header is at least as deep as L, the pop closes the
whole stack into at most one node appended to the roots. -/
theorem popGE_all (L : Nat) (r : List MDNode) (s : List Frame)
    (h : ∀ f ∈ s, L ≤ f.level) :
    popGE L r s = (r ++ (collapseInto s).toList, []) := by
  have hp : ∀ f ∈ s, (fun f => decide (L ≤ f.level)) f = true := by
    intro f hf
    simpa using h f hf
  cases s with
  | nil => simp [popGE, collapseInto]
  | cons f fs =>
      unfold popGE
      rw [takeWhile_all _ _ hp, dropWhile_all _ _ hp]
      simp [collapseInto]

theorem collapseGo_append (n : MDNode) (l : List Frame) (fl : Frame) :
    collapseGo n (l ++ [fl]) =
      Frame.close ⟨fl.level, fl.label, fl.children ++ [collapseGo n l]⟩ := by
  induction l generalizing n with
  | nil => rfl
  | cons g gs ih => simp [collapseGo, ih]

theorem collapseInto_append (stk : List Frame) (fl : Frame) :
    collapseInto (stk ++ [fl]) =
      some (Frame.close ⟨fl.level, fl.label,
        fl.children ++ (collapseInto stk).toList⟩) := by
  cases stk with
  | nil =>
      have h0 : (collapseInto ([] : List Frame)).toList = [] := rfl
      rw [List.nil_append, h0, List.append_nil]
      rfl
  | cons f fs => simp [collapseInto, collapseGo_append]

theorem finalize_eq (r : List MDNode) (s : List Frame) :
    finalize (r, s) = r ++ (collapseInto s).toList := by
  unfold finalize
  rw [popGE_all 0 r s fun f _ => Nat.zero_le _]

theorem dropWhile_head_not {α} (p : α → Bool) (l : List α) (b : α)
    (t : List α) (h : l.dropWhile p = b :: t) : p b = false := by
  induction l with
  | nil => simp at h
  | cons a as ih =>
      rw [List.dropWhile_cons] at h
      by_cases hpa : p a = true
      · exact ih (by simpa [hpa] using h)
      · have hab : a = b := by
          simp [hpa] at h
          exact h.1
        simpa [← hab] using hpa

theorem runHeaders_nil (st : List MDNode × List Frame) :
    runHeaders st [] = st := rfl

theorem runHeaders_cons (st : List MDNode × List Frame) (h : Nat × String)
    (hs : List (Nat × String)) :
    runHeaders st (h :: hs) = runHeaders (hStep st h) hs := rfl

theorem runHeaders_append (st : List MDNode × List Frame)
    (a b : List (Nat × String)) :
    runHeaders st (a ++ b) = runHeaders (runHeaders st a) b := by
  simp [runHeaders, List.foldl_append]

/-- The stack algorithm of `_parse_markdown` produces exactly the forest
described by the spec's stack discipline. -/
theorem stackForest_eq_specForest (hs : List (Nat × String)) :
    stackForest hs = specForest hs :=
  match hs with
  | [] => by
      have h0 : specForest [] = [] := by simp [specForest]
      rw [h0]
      rfl
  | (L, t) :: rest => by
      have ih_inner := stackForest_eq_specForest
        (rest.takeWhile fun h => decide (L < h.1))
      have ih_outer := stackForest_eq_specForest
        (rest.dropWhile fun h => decide (L < h.1))
      have hdeep : ∀ h ∈ rest.takeWhile fun h => decide (L < h.1), L < h.1 := by
        intro h hh
        have := List.mem_takeWhile_imp
          (p := fun (h : Nat × String) => decide (L < h.1)) hh
        exact of_decide_eq_true this
      have e0 : stackForest ((L, t) :: rest) =
          finalize (runHeaders ([], [(⟨L, t, []⟩ : Frame)]) rest) := rfl
      have hsplit : (rest.takeWhile fun h => decide (L < h.1)) ++
          (rest.dropWhile fun h => decide (L < h.1)) = rest :=
        List.takeWhile_append_dropWhile _ rest
      have e1 : runHeaders ([], [(⟨L, t, []⟩ : Frame)]) rest =
          runHeaders
            (runHeaders ([], [(⟨L, t, []⟩ : Frame)])
              (rest.takeWhile fun h => decide (L < h.1)))
            (rest.dropWhile fun h => decide (L < h.1)) := by
        conv in runHeaders _ rest => rw [← hsplit]
        exact runHeaders_append _ _ _
      have e2 : runHeaders ([], [(⟨L, t, []⟩ : Frame)])
            (rest.takeWhile fun h => decide (L < h.1)) =
          ([], (runHeaders ([], [])
              (rest.takeWhile fun h => decide (L < h.1))).2 ++
            [(⟨L, t, (runHeaders ([], [])
              (rest.takeWhile fun h => decide (L < h.1))).1⟩ : Frame)]) := by
        have := runHeaders_floor (rest.takeWhile fun h => decide (L < h.1))
          (⟨L, t, []⟩ : Frame) [] [] [] (by simpa using hdeep)
        simpa using this
      have hlev : ∀ f ∈ (runHeaders (([] : List MDNode), ([] : List Frame))
          (rest.takeWhile fun h => decide (L < h.1))).2, L < f.level := by
        intro f hf
        rcases runHeaders_levels _ _ f hf with hmem | hmem
        · simp at hmem
        · obtain ⟨h, hh, hhl⟩ := List.mem_map.1 hmem
          exact hhl ▸ hdeep h hh
      have efloor : finalize ([], (runHeaders (([] : List MDNode),
            ([] : List Frame))
            (rest.takeWhile fun h => decide (L < h.1))).2 ++
          [(⟨L, t, (runHeaders ([], [])
            (rest.takeWhile fun h => decide (L < h.1))).1⟩ : Frame)]) =
          [MDNode.node t ("h" ++ toString L) L
            (stackForest (rest.takeWhile fun h => decide (L < h.1)))] := by
        rw [finalize_eq, collapseInto_append]
        have hsf : stackForest (rest.takeWhile fun h => decide (L < h.1)) =
            (runHeaders ([], [])
              (rest.takeWhile fun h => decide (L < h.1))).1 ++
            (collapseInto (runHeaders ([], [])
              (rest.takeWhile fun h => decide (L < h.1))).2).toList := by
          rw [stackForest, finalize_eq]
        rw [hsf]
        simp [Frame.close]
      cases houter : rest.dropWhile fun h => decide (L < h.1) with
      | nil =>
          rw [e0, e1, e2, houter, runHeaders_nil, efloor, ih_inner]
          have h0 : specForest [] = [] := by simp [specForest]
          simp only [specForest, houter, h0]
      | cons h₂ out₂ =>
          have hle : h₂.1 ≤ L := by
            have := dropWhile_head_not _ _ _ _ houter
            simpa using this
          rw [e0, e1, e2, houter, runHeaders_cons]
          have hall : ∀ f ∈ ((runHeaders (([] : List MDNode), ([] : List Frame))
              (rest.takeWhile fun h => decide (L < h.1))).2 ++
                [(⟨L, t, (runHeaders ([], [])
                  (rest.takeWhile fun h => decide (L < h.1))).1⟩ : Frame)]),
              h₂.1 ≤ f.level := by
            intro f hf
            rcases List.mem_append.1 hf with hf | hf
            · exact le_of_lt (lt_of_le_of_lt hle (hlev f hf))
            · rcases List.mem_singleton.1 hf with rfl
              exact hle
          have estep : hStep
              (([], (runHeaders ([], [])
                  (rest.takeWhile fun h => decide (L < h.1))).2 ++
                [(⟨L, t, (runHeaders ([], [])
                  (rest.takeWhile fun h => decide (L < h.1))).1⟩ : Frame)]) :
                  List MDNode × List Frame) h₂ =
              ([MDNode.node t ("h" ++ toString L) L (stackForest
                  (rest.takeWhile fun h => decide (L < h.1)))],
                [(⟨h₂.1, h₂.2, []⟩ : Frame)]) := by
            simp only [hStep]
            rw [popGE_all _ _ _ hall, collapseInto_append]
            have hsf : stackForest (rest.takeWhile fun h => decide (L < h.1)) =
                (runHeaders ([], [])
                  (rest.takeWhile fun h => decide (L < h.1))).1 ++
                (collapseInto (runHeaders ([], [])
                  (rest.takeWhile fun h => decide (L < h.1))).2).toList := by
              rw [stackForest, finalize_eq]
            rw [hsf]
            simp [Frame.close]
          rw [estep]
          rw [runHeaders_roots out₂
            [MDNode.node t ("h" ++ toString L) L (stackForest
              (rest.takeWhile fun h => decide (L < h.1)))]
            [(⟨h₂.1, h₂.2, []⟩ : Frame)]]
          rw [show (runHeaders ([], [(⟨h₂.1, h₂.2, []⟩ : Frame)]) out₂) =
            runHeaders ([], []) (h₂ :: out₂) from rfl]
          rw [finalize_eq]
          have hout : stackForest (h₂ :: out₂) =
              (runHeaders ([], []) (h₂ :: out₂)).1 ++
                (collapseInto (runHeaders ([], []) (h₂ :: out₂)).2).toList := by
            rw [stackForest, finalize_eq]
          rw [List.cons_append, List.nil_append, List.cons_append, ← hout]
          rw [ih_inner]
          rw [show stackForest (h₂ :: out₂) =
            specForest (h₂ :: out₂) from houter ▸ ih_outer]
          simp only [specForest, houter]
termination_by hs.length
decreasing_by
  · exact Nat.lt_succ_of_le (List.takeWhile_sublist _).length_le
  · exact Nat.lt_succ_of_le (List.dropWhile_sublist _).length_le

theorem foldl_mdStep_filterMap (lines : List String)
    (st : List MDNode × List Frame) :
    lines.foldl mdStep st = (lines.filterMap matchHeader).foldl hStep st := by
  induction lines generalizing st with
  | nil => rfl
  | cons l ls ih =>
      cases hml : matchHeader l with
      | none => simp [mdStep, hml, List.filterMap_cons, ih]
      | some h => simp [mdStep, hml, List.filterMap_cons, ih]

theorem parse_markdown_eq_specForest (content : String) :
    parse_markdown content = specForest (headersOf content) := by
  show finalize ((pySplitLines content).foldl mdStep ([], [])) = _
  rw [foldl_mdStep_filterMap]
  exact stackForest_eq_specForest _

/-- C3 (confirmed): for every markdown input the parser builds the header
forest by the stack discipline — each header of level L closes every open
header of level ≥ L and attaches under the new stack top (or as a root);
equivalently, its subtree spans exactly the maximal following run of
strictly deeper headers (`specForest`).  The canonical example
`# A\n## B\n## C\n# D` yields roots [A{B,C}, D{}]. -/
theorem c3_markdown_stack_discipline :
    (∀ content : String,
      parse_markdown content = specForest (headersOf content)) ∧
    parse_markdown "# A\n## B\n## C\n# D" =
      [MDNode.node "A" "h1" 1
        [MDNode.node "B" "h2" 2 [], MDNode.node "C" "h2" 2 []],
       MDNode.node "D" "h1" 1 []] :=
  ⟨parse_markdown_eq_specForest, rfl⟩

/-! ## JSON/YAML tree building (file_parser.py lines 89-181) -/

/-- A decoded JSON/YAML value.  `json.loads` and `yaml.safe_load` are
external libraries; the parser is modelled on their decoded output
(numbers as integers suffice for the structural claims). -/
inductive JValue where
  | null
  | bool (b : Bool)
  | num (n : Int)
  | str (s : String)
  | arr (elems : List JValue)
  | obj (entries : List (String × JValue))

/-- A tree node produced by the parser:
`{label, type (absent on parse-error nodes), children}`. -/
inductive JNode where
  | node (label : String) (type : Option String) (children : List JNode)

def JNode.label : JNode → String
  | .node l _ _ => l

def JNode.type : JNode → Option String
  | .node _ t _ => t

def JNode.children : JNode → List JNode
  | .node _ _ c => c

/-- Python `str(data)` for the scalar values the parser stringifies
(compound values are never stringified by the source). -/
def pyStr : JValue → String
  | .null => "None"
  | .bool true => "True"
  | .bool false => "False"
  | .num n => toString n
  | .str s => s
  | .arr _ => ""
  | .obj _ => ""

/-- The type tag assigned to a primitive value (`null`, `boolean`,
`number`, `string`; the `isinstance` chain checks bool before numbers). -/
def scalarType : JValue → String
  | .null => "null"
  | .bool _ => "boolean"
  | .num _ => "number"
  | .str _ => "string"
  | .arr _ => ""
  | .obj _ => ""

/-- Python truthiness of the optional `key` argument: `None` and the empty
string are falsy. -/
def keyTruthy : Option String → Bool
  | none => false
  | some s => !(s == "")

/-- The node built for a primitive value:
`{label: key if key else str(data), type, children: []}`. -/
def scalarNode (v : JValue) (key : Option String) : JNode :=
  .node (if keyTruthy key then key.getD "" else pyStr v)
    (some (scalarType v)) []

mutual

/-- `_build_json_tree(data, key)` (file_parser.py lines 119-181). -/
def buildJsonTree (data : JValue) (key : Option String) : List JNode :=
  match data with
  | .obj entries =>
      if keyTruthy key then
        [.node (key.getD "") (some "object") (buildEntries entries)]
      else
        buildEntries entries
  | .arr elems =>
      let t := "array[" ++ toString elems.length ++ "]"
      if keyTruthy key then
        [.node (key.getD "") (some t) (buildElems 0 elems)]
      else
        [.node "Root Array" (some t) (buildElems 0 elems)]
  | .null => [scalarNode .null key]
  | .bool b => [scalarNode (.bool b) key]
  | .num n => [scalarNode (.num n) key]
  | .str s => [scalarNode (.str s) key]

/-- The entry loop `for k, v in data.items(): extend(build(v, k))`. -/
def buildEntries : List (String × JValue) → List JNode
  | [] => []
  | (k, v) :: rest => buildJsonTree v (some k) ++ buildEntries rest

/-- The element loop `for i, item in enumerate(data): extend(build(item,
'[i]'))`. -/
def buildElems (i : Nat) : List JValue → List JNode
  | [] => []
  | v :: rest =>
      buildJsonTree v (some ("[" ++ toString i ++ "]")) ++ buildElems (i + 1) rest

end

/-- `_parse_json` (lines 89-102), given the result of `json.loads`:
a decode failure is rendered as a single error node with no `type`. -/
def parse_json (decoded : Except String JValue) : List JNode :=
  match decoded with
  | .ok data => buildJsonTree data none
  | .error e => [.node ("JSON Parse Error: " ++ e) none []]

/-- `_parse_yaml` (lines 104-117), given the result of `yaml.safe_load`. -/
def parse_yaml (decoded : Except String JValue) : List JNode :=
  match decoded with
  | .ok data => buildJsonTree data none
  | .error e => [.node ("YAML Parse Error: " ++ e) none []]

/-- A truthy key always wraps the value in exactly one node labelled by
the key, whatever the value's shape. -/
theorem buildJsonTree_keyed (v : JValue) (k : String) (hk : k ≠ "") :
    ∃ t c, buildJsonTree v (some k) = [JNode.node k t c] := by
  have ht : keyTruthy (some k) = true := by simp [keyTruthy, hk]
  cases v with
  | obj entries =>
      exact ⟨some "object", buildEntries entries, by simp [buildJsonTree, ht]⟩
  | arr elems =>
      exact ⟨some ("array[" ++ toString elems.length ++ "]"), buildElems 0 elems,
        by simp [buildJsonTree, ht]⟩
  | null => exact ⟨some "null", [], by simp [buildJsonTree, scalarNode, ht,
      scalarType]⟩
  | bool b => exact ⟨some "boolean", [], by simp [buildJsonTree, scalarNode, ht,
      scalarType]⟩
  | num n => exact ⟨some "number", [], by simp [buildJsonTree, scalarNode, ht,
      scalarType]⟩
  | str s => exact ⟨some "string", [], by simp [buildJsonTree, scalarNode, ht,
      scalarType]⟩

/-- Object entries produce one node per entry, labelled by the keys in
insertion order (when no key is the empty string). -/
theorem buildEntries_labels (entries : List (String × JValue))
    (h : ∀ kv ∈ entries, kv.1 ≠ "") :
    (buildEntries entries).map JNode.label = entries.map Prod.fst := by
  induction entries with
  | nil => simp [buildEntries]
  | cons kv rest ih =>
      obtain ⟨t, c, hkv⟩ :=
        buildJsonTree_keyed kv.2 kv.1 (h kv (List.mem_cons_self kv rest))
      cases kv with
      | mk k v =>
          simp only at hkv
          simp [buildEntries, hkv, JNode.label,
            ih fun x hx => h x (List.mem_cons_of_mem _ hx)]

/-- Array elements produce one node per element, labelled `[index]` in
index order. -/
theorem buildElems_labels (i : Nat) (elems : List JValue) :
    (buildElems i elems).map JNode.label =
      (List.range' i elems.length).map fun j => "[" ++ toString j ++ "]" := by
  induction elems generalizing i with
  | nil => simp [buildElems]
  | cons v rest ih =>
      have hk : ("[" ++ toString i ++ "]") ≠ "" := by
        intro hcon
        have h2 := congrArg String.length hcon
        rw [String.length_append, String.length_append] at h2
        simp at h2
        exact absurd h2.1.1 (by decide)
      obtain ⟨t, c, hv⟩ := buildJsonTree_keyed v _ hk
      simp [buildElems, hv, List.range', JNode.label, ih (i + 1)]

/-! ## Claim theorems: JSON/YAML tree builder -/

/-- C5 (counterexample): the claim promises one node per entry for a
flattened root object, but `_build_json_tree` tests `if key:` and the
empty string is falsy, so the well-formed document `{"": {}}` yields zero
nodes for its one entry, and `{"": {"a": 1, "b": 2}}` yields two spliced
nodes, neither labelled by the entry's key. -/
theorem c5_counterexample :
    buildJsonTree (JValue.obj [("", JValue.obj [])]) none = [] ∧
    buildJsonTree (JValue.obj
        [("", JValue.obj [("a", JValue.num 1), ("b", JValue.num 2)])]) none =
      [JNode.node "a" (some "number") [], JNode.node "b" (some "number") []] := by
  constructor
  · simp [buildJsonTree, buildEntries, keyTruthy]
  · simp [buildJsonTree, buildEntries, keyTruthy, scalarNode, scalarType]

/-- C5 (amended): the tree builder preserves object key-insertion order
and array element order, every array node carries `array[N]` with the
element count N verbatim, a root object is flattened with no synthetic
wrapper, and a root array becomes a single node labelled "Root Array";
the one-node-per-entry, labelled-by-key shape holds for entries whose key
is non-empty — an entry with the empty-string key is treated as keyless
by the `if key:` truthiness test and its value is spliced in unwrapped. -/
theorem c5_json_tree_structure :
    (∀ elems key, ∃ lbl,
        buildJsonTree (.arr elems) key =
          [JNode.node lbl (some ("array[" ++ toString elems.length ++ "]"))
            (buildElems 0 elems)] ∧ (key = none → lbl = "Root Array")) ∧
    (∀ entries, buildJsonTree (.obj entries) none = buildEntries entries) ∧
    (∀ entries, (∀ kv ∈ entries, kv.1 ≠ "") →
      (buildEntries entries).map JNode.label = entries.map Prod.fst) ∧
    (∀ i elems, (buildElems i elems).map JNode.label =
      (List.range' i elems.length).map fun j => "[" ++ toString j ++ "]") := by
  refine ⟨?_, fun entries => by simp [buildJsonTree, keyTruthy],
    buildEntries_labels, buildElems_labels⟩
  intro elems key
  match key with
  | none => exact ⟨"Root Array", by simp [buildJsonTree, keyTruthy], fun _ => rfl⟩
  | some k =>
      by_cases hk : k = ""
      · subst hk
        exact ⟨"Root Array", by simp [buildJsonTree, keyTruthy],
          fun h => nomatch h⟩
      · exact ⟨k, by simp [buildJsonTree, keyTruthy, hk], fun h => nomatch h⟩

theorem c5_json_tree_structure_witness :
    (buildEntries [("b", JValue.num 1), ("a", JValue.num 2)]).map JNode.label =
      ["b", "a"] :=
  (c5_json_tree_structure.2.2.1 [("b", JValue.num 1), ("a", JValue.num 2)]
    (by decide)).trans (by rfl)

/-- C6 (confirmed): a JSON decode failure yields exactly one node whose
label starts with "JSON Parse Error" and whose children are empty (the
parser catches the decoder error instead of raising). -/
theorem c6_json_parse_error (e : String) :
    parse_json (Except.error e) =
      [JNode.node ("JSON Parse Error: " ++ e) none []] ∧
    pyStartsWith ("JSON Parse Error: " ++ e) "JSON Parse Error" = true := by
  refine ⟨rfl, ?_⟩
  unfold pyStartsWith
  rw [decide_eq_true_eq, String.data_append]
  have h1 : ("JSON Parse Error".data : List Char) <+: "JSON Parse Error: ".data := by
    decide
  exact h1.trans (List.prefix_append _ _)

/-- C10 (confirmed): a YAML document that decodes to null yields exactly
one node labelled "None" (the stringified null) with type "null" and no
children. -/
theorem c10_yaml_null_document :
    parse_yaml (Except.ok JValue.null) =
      [JNode.node "None" (some "null") []] := by
  simp [parse_yaml, buildJsonTree, scalarNode, keyTruthy, pyStr, scalarType]

/-! ## Change broadcasting (server.py lines 37-55) -/

/-- An SSE client queue: `queue.Queue(maxsize=10)` plus an identity —
every `queue.Queue()` object is distinct, and `list.remove` compares by
that identity. -/
structure SSEQueue where
  id : Nat
  maxsize : Nat
  buf : List (String × String × String)
deriving DecidableEq, Repr

/-- `q.put_nowait(m)`: per the queue library contract it raises
`queue.Full` exactly when `0 < maxsize ≤ qsize()`; modelled as `none` on
failure. -/
def put_nowait (q : SSEQueue) (m : String × String × String) :
    Option SSEQueue :=
  if 0 < q.maxsize ∧ q.maxsize ≤ q.buf.length then none
  else some { q with buf := q.buf ++ [m] }

/-- `broadcast_change` (server.py lines 37-55): attempt a non-blocking put
on every registered queue, collect the queues whose put raised Full, then
remove exactly those from the registry within the same call. -/
def broadcast_change (m : String × String × String)
    (queues : List SSEQueue) : List SSEQueue :=
  (queues.map fun q => (put_nowait q m).getD q).filter fun q =>
    decide (q.id ∉
      ((queues.filter fun q => (put_nowait q m).isNone).map SSEQueue.id))

/-- Number of puts that succeed during one broadcast call. -/
def deliveries (m : String × String × String)
    (queues : List SSEQueue) : Nat :=
  (queues.filter fun q => (put_nowait q m).isSome).length

theorem put_nowait_getD_id (q : SSEQueue) (m : String × String × String) :
    ((put_nowait q m).getD q).id = q.id := by
  unfold put_nowait
  split <;> rfl

/-- With distinct queue identities, a broadcast keeps exactly the queues
whose put succeeded, updated in place, in registry order. -/
theorem broadcast_change_filterMap (m : String × String × String)
    (queues : List SSEQueue) (h : (queues.map SSEQueue.id).Nodup) :
    broadcast_change m queues = queues.filterMap fun q => put_nowait q m := by
  induction queues with
  | nil => rfl
  | cons q rest ih =>
      rw [List.map_cons, List.nodup_cons] at h
      obtain ⟨hq, hrest⟩ := h
      have ihr := ih hrest
      have hid : ∀ x ∈ rest.map fun r => (put_nowait r m).getD r,
          x.id ∈ rest.map SSEQueue.id := by
        intro x hx
        obtain ⟨r, hr, rfl⟩ := List.mem_map.1 hx
        rw [put_nowait_getD_id]
        exact List.mem_map_of_mem _ hr
      unfold broadcast_change at ihr ⊢
      cases hput : put_nowait q m with
      | none =>
          simp only [List.map_cons, List.filter_cons, hput,
            Option.isNone_none, List.filterMap_cons, Option.getD_none]
          simp only [if_true]
          rw [if_neg (by simp)]
          refine (List.filter_congr ?_).trans ihr
          intro x hx
          have hxid := hid x hx
          have hne : x.id ≠ q.id := fun hcon => hq (hcon ▸ hxid)
          simp [List.map_cons, List.mem_cons, hne]
      | some q' =>
          have hq'id : q'.id = q.id := by
            unfold put_nowait at hput
            split at hput
            · exact absurd hput (by simp)
            · cases hput
              rfl
          have hsub : ((rest.filter fun r => (put_nowait r m).isNone).map
              SSEQueue.id) ⊆ rest.map SSEQueue.id :=
            List.map_subset _ (List.filter_sublist rest).subset
          simp only [List.map_cons, List.filter_cons, hput,
            Option.isNone_some, List.filterMap_cons, Option.getD_some,
            Bool.false_eq_true, if_false]
          rw [if_pos (by
            simp only [decide_eq_true_eq]
            intro hmem
            exact hq (hsub (hq'id ▸ hmem)))]
          exact congrArg (q' :: ·) ihr

/-- C4 (confirmed): a broadcast pushes non-blockingly to every registered
queue; a full queue receives nothing and is removed within the same call;
the others receive exactly the event appended; with three subscribers of
which one is full, exactly two deliveries succeed, and a subsequent
broadcast reaches only the remaining two. -/
theorem c4_broadcast_drops_full :
    (∀ m queues, (queues.map SSEQueue.id).Nodup →
      broadcast_change m queues = queues.filterMap fun q => put_nowait q m) ∧
    (∀ q m q', put_nowait q m = some q' →
      q'.buf = q.buf ++ [m] ∧ q'.id = q.id) ∧
    (∀ q m, put_nowait q m = none ↔
      0 < q.maxsize ∧ q.maxsize ≤ q.buf.length) ∧
    (deliveries ("modified", "/p/a.md", "p1")
        [⟨1, 10, []⟩, ⟨2, 10, List.replicate 10 ("m", "x", "p")⟩,
         ⟨3, 10, []⟩] = 2 ∧
      broadcast_change ("modified", "/p/a.md", "p1")
        [⟨1, 10, []⟩, ⟨2, 10, List.replicate 10 ("m", "x", "p")⟩,
         ⟨3, 10, []⟩] =
        [⟨1, 10, [("modified", "/p/a.md", "p1")]⟩,
         ⟨3, 10, [("modified", "/p/a.md", "p1")]⟩] ∧
      deliveries ("created", "/p/b.md", "p1")
        (broadcast_change ("modified", "/p/a.md", "p1")
          [⟨1, 10, []⟩, ⟨2, 10, List.replicate 10 ("m", "x", "p")⟩,
           ⟨3, 10, []⟩]) = 2) := by
  refine ⟨broadcast_change_filterMap, ?_, ?_, by decide⟩
  · intro q m q' hput
    unfold put_nowait at hput
    split at hput
    · exact absurd hput (by simp)
    · cases hput
      exact ⟨rfl, rfl⟩
  · intro q m
    unfold put_nowait
    split <;> simp_all

theorem c4_broadcast_drops_full_witness :
    broadcast_change ("modified", "/p/a.md", "p1")
        [⟨1, 10, []⟩, ⟨2, 10, List.replicate 10 ("m", "x", "p")⟩,
         ⟨3, 10, []⟩] =
      [⟨1, 10, []⟩, ⟨2, 10, List.replicate 10 ("m", "x", "p")⟩,
       ⟨3, 10, []⟩].filterMap
        (fun q => put_nowait q ("modified", "/p/a.md", "p1")) ∧
    ((⟨1, 10, [("modified", "/p/a.md", "p1")]⟩ : SSEQueue).buf =
        ([] : List (String × String × String)) ++
          [("modified", "/p/a.md", "p1")] ∧
      (⟨1, 10, [("modified", "/p/a.md", "p1")]⟩ : SSEQueue).id = 1) :=
  ⟨c4_broadcast_drops_full.1 ("modified", "/p/a.md", "p1")
      [⟨1, 10, []⟩, ⟨2, 10, List.replicate 10 ("m", "x", "p")⟩, ⟨3, 10, []⟩]
      (by decide),
   c4_broadcast_drops_full.2.1 ⟨1, 10, []⟩ ("modified", "/p/a.md", "p1")
      ⟨1, 10, [("modified", "/p/a.md", "p1")]⟩ (by decide)⟩

/-! ## Folder watching (watcher.py) -/

/-- Observable state of a `FolderWatcher`: the `_running` flag, how many
times `observer.schedule` was called, and whether the observer thread was
started/stopped. -/
structure FolderWatcher where
  folderPath : String
  running : Bool
  scheduled : Nat
  observerStarted : Bool
  observerStopped : Bool
deriving DecidableEq, Repr

/-- `FolderWatcher.__init__` (watcher.py lines 42-53). -/
def FolderWatcher.init (path : String) : FolderWatcher :=
  ⟨path, false, 0, false, false⟩

/-- `FolderWatcher.start` (lines 55-65): schedule and start the observer
only when not already running. -/
def FolderWatcher.start (w : FolderWatcher) : FolderWatcher :=
  if !w.running then
    { w with
        scheduled := w.scheduled + 1
        observerStarted := true
        running := true }
  else w

/-- `FolderWatcher.stop` (lines 67-73): stop and join the observer only
when running; total — never raises. -/
def FolderWatcher.stop (w : FolderWatcher) : FolderWatcher :=
  if w.running then { w with observerStopped := true, running := false }
  else w

/-- C8 (confirmed): starting twice has the same observable effect as
starting once; stopping a non-running watcher does not raise and leaves
the state unchanged; stopping twice equals stopping once. -/
theorem c8_watcher_state_machine :
    (∀ w : FolderWatcher, w.start.start = w.start) ∧
    (∀ w : FolderWatcher, w.running = false → w.stop = w) ∧
    (∀ w : FolderWatcher, w.stop.stop = w.stop) := by
  refine ⟨?_, ?_, ?_⟩
  · intro w
    cases hw : w.running <;> simp [FolderWatcher.start, hw]
  · intro w hw
    simp [FolderWatcher.stop, hw]
  · intro w
    cases hw : w.running <;> simp [FolderWatcher.stop, hw]

theorem c8_watcher_state_machine_witness :
    (FolderWatcher.init "/p").running = false ∧
    (FolderWatcher.init "/p").stop = FolderWatcher.init "/p" :=
  ⟨rfl, c8_watcher_state_machine.2.1 (FolderWatcher.init "/p") rfl⟩

/-! ## Watcher event filter vs scanner file filter -/

/-- The watcher's event filter (`watcher.py` line 33):
`event.src_path.endswith(('.md', '.json', '.yml', '.yaml'))` —
case-sensitive, and without `.mmd`. -/
def watcherForwards (path : String) : Bool :=
  pyEndsWith path ".md" || pyEndsWith path ".json" ||
    pyEndsWith path ".yml" || pyEndsWith path ".yaml"

/-- Of two suffixes of the same list, the one not longer is a suffix of
the other. -/
theorem suffix_of_suffix_length_le {α} (a b c : List α) (ha : a <:+ c)
    (hb : b <:+ c) (hab : a.length ≤ b.length) : a <:+ b := by
  obtain ⟨t, rfl⟩ := hb
  obtain ⟨s, hs⟩ := ha
  have hlen : t.length ≤ s.length := by
    have hl := congrArg List.length hs
    simp only [List.length_append] at hl
    omega
  have hdrop : b.drop (s.length - t.length) = a := by
    have h1 : (t ++ b).drop s.length = a := by
      rw [← hs]
      exact List.drop_left s a
    have h2 : b.drop (s.length - t.length) =
        ((t ++ b).drop t.length).drop (s.length - t.length) := by
      rw [List.drop_left t b]
    have h3 : ((t ++ b).drop t.length).drop (s.length - t.length) =
        (t ++ b).drop s.length := by
      rw [List.drop_drop]
      congr 1
      omega
    exact h2.trans (h3.trans h1)
  exact hdrop ▸ List.drop_suffix _ b
theorem watcherForwards_append_mmd (stem : String) :
    watcherForwards (stem ++ ".mmd") = false := by
  unfold watcherForwards pyEndsWith
  rw [String.data_append]
  simp only [Bool.or_eq_false_iff, decide_eq_false_iff_not]
  refine ⟨⟨⟨?_, ?_⟩, ?_⟩, ?_⟩
  · intro hsuf
    have := suffix_of_suffix_length_le _ _ _ hsuf
      (List.suffix_append stem.data ".mmd".data) (by decide)
    exact absurd this (by decide)
  · intro hsuf
    have := suffix_of_suffix_length_le _ _ _
      (List.suffix_append stem.data ".mmd".data) hsuf (by decide)
    exact absurd this (by decide)
  · intro hsuf
    have := suffix_of_suffix_length_le _ _ _ hsuf
      (List.suffix_append stem.data ".mmd".data) (by decide)
    exact absurd this (by decide)
  · intro hsuf
    have := suffix_of_suffix_length_le _ _ _
      (List.suffix_append stem.data ".mmd".data) hsuf (by decide)
    exact absurd this (by decide)

theorem watcherForwards_append_MD (stem : String) :
    watcherForwards (stem ++ ".MD") = false := by
  unfold watcherForwards pyEndsWith
  rw [String.data_append]
  simp only [Bool.or_eq_false_iff, decide_eq_false_iff_not]
  refine ⟨⟨⟨?_, ?_⟩, ?_⟩, ?_⟩
  · intro hsuf
    have := suffix_of_suffix_length_le _ _ _ hsuf
      (List.suffix_append stem.data ".MD".data) (by decide)
    exact absurd this (by decide)
  · intro hsuf
    have := suffix_of_suffix_length_le _ _ _
      (List.suffix_append stem.data ".MD".data) hsuf (by decide)
    exact absurd this (by decide)
  · intro hsuf
    have := suffix_of_suffix_length_le _ _ _
      (List.suffix_append stem.data ".MD".data) hsuf (by decide)
    exact absurd this (by decide)
  · intro hsuf
    have := suffix_of_suffix_length_le _ _ _
      (List.suffix_append stem.data ".MD".data) hsuf (by decide)
    exact absurd this (by decide)

/-- C9 (confirmed): the watcher's event filter and the scanner's file
filter disagree — the scanner lower-cases the suffix and includes `.mmd`,
so `.mmd` and `.MD` files appear in listings, while the watcher matches
case-sensitively against `.md/.json/.yml/.yaml` only, so such paths never
produce a change event. -/
theorem c9_watcher_scanner_filter_disagreement :
    pyLower ".mmd" ∈ supportedExts ∧
    pyLower ".MD" ∈ supportedExts ∧
    browse_project "/p" [FSNode.file "a.mmd" ".mmd" 5 7] =
      [Item.file "a.mmd" "/p/a.mmd" ".mmd" 5 7] ∧
    browse_project "/p" [FSNode.file "b.MD" ".MD" 5 7] =
      [Item.file "b.MD" "/p/b.MD" ".md" 5 7] ∧
    watcherForwards "/p/a.md" = true ∧
    (∀ stem : String, watcherForwards (stem ++ ".mmd") = false) ∧
    (∀ stem : String, watcherForwards (stem ++ ".MD") = false) :=
  ⟨by decide, by decide, by decide, by decide, by decide,
    watcherForwards_append_mmd, watcherForwards_append_MD⟩

end FileViewer
